import Mathlib

/-!
Verification of the `aincradfs-path` core: the double-ended path-component
iterator (`src/aincradfs-path/src/path/components.rs`), the byte-encoded path
view (`src/aincradfs-path/src/path/u8path.rs`), and the path-trie key-boundary
policy (`find_break`), as a shallow embedding over `List Nat` (one `Nat` per
text unit, i.e. per byte for the `U8Path` instantiation).  Fallible Rust code
(slice indexing that can panic) is embedded as `Option`.  All machine loops are
embedded with explicit fuel so every definition is kernel-computable.
-/

namespace AincradFS

/-- Embeds `U8Path::is_separator` / `BStr::is_separator`: a unit is a
separator iff it is the byte for a forward slash (47) or a backslash (92). -/
def sep (b : Nat) : Bool := b == 47 || b == 92

/-- Embeds the constant `CURRENT_DIR = "."` (the byte 46). -/
def curDir : List Nat := [46]

/-- Embeds the constant `PARENT_DIR = ".."`. -/
def parentDir : List Nat := [46, 46]

/-- Embeds `enum Component`: `Root | Current | Parent | Normal(slice)`. -/
inductive Component where
  | Root : Component
  | Current : Component
  | Parent : Component
  | Normal : List Nat → Component
  deriving DecidableEq

/-- Embeds the iterator cursor `enum State { StartDir = 0, Body = 1, Done = 2 }`. -/
inductive State where
  | StartDir : State
  | Body : State
  | Done : State
  deriving DecidableEq

/-- Discriminant of `State`, mirroring the Rust discriminants used by the
derived `PartialOrd` (`StartDir = 0, Body = 1, Done = 2`). -/
def stateVal : State → Nat
  | .StartDir => 0
  | .Body => 1
  | .Done => 2

/-- Embeds `struct Components`: the unparsed slice, the `has_root` flag
snapshotted at construction, and the two cursors. -/
structure Components where
  path : List Nat
  has_root : Bool
  front : State
  back : State
  deriving DecidableEq

/-- Embeds `Components::include_cur_dir`, factored over the `has_root` flag and
the current path slice: false when rooted, otherwise true iff the slice is
exactly `.` or starts with `.` followed by a separator. -/
def inclCore (hr : Bool) (p : List Nat) : Bool :=
  if hr then false
  else
    match p with
    | [] => false
    | [ch] => ch == 46
    | ch :: b :: _ => ch == 46 && sep b

/-- `Components::include_cur_dir` on the iterator state. -/
def incl (c : Components) : Bool := inclCore c.has_root c.path

/-- Embeds `Components::len_before_body`: how many leading units are still
reserved for the unconsumed root / current-dir prefix.  `front <= StartDir`
means `front = StartDir` since `StartDir` is the least state. -/
def lbb (c : Components) : Nat :=
  (if c.front = State.StartDir ∧ c.has_root = true then 1 else 0) +
    (if c.front = State.StartDir ∧ incl c = true then 1 else 0)

/-- Embeds `Components::finished`:
`front == Done || back == Done || front > back`. -/
def finished (c : Components) : Bool :=
  decide (c.front = State.Done) || decide (c.back = State.Done) ||
    decide (stateVal c.back < stateVal c.front)

/-- Embeds `Components::parse_single_component`: `.` and empty segments are
dropped, `..` is `Parent`, anything else is `Normal`. -/
def parseSingle (comp : List Nat) : Option Component :=
  if comp = curDir then none
  else if comp = parentDir then some Component.Parent
  else if comp = [] then none
  else some (Component.Normal comp)

/-- Index of the first separator in a unit slice
(embeds `.iter().position(is_separator)`). -/
def firstSep : List Nat → Option Nat
  | [] => none
  | b :: rest => if sep b then some 0 else (firstSep rest).map (· + 1)

/-- Index of the last separator in a unit slice
(embeds `.iter().rposition(is_separator)`). -/
def lastSep : List Nat → Option Nat
  | [] => none
  | b :: rest =>
    match lastSep rest with
    | some i => some (i + 1)
    | none => if sep b then some 0 else none

/-- Embeds `Components::parse_next_component` on the raw slice: the size to
consume from the front and the parsed component. -/
def parseNextL (p : List Nat) : Nat × Option Component :=
  match firstSep p with
  | none => (p.length, parseSingle p)
  | some i => ((p.take i).length + 1, parseSingle (p.take i))

/-- Embeds `Components::parse_next_component_back` on the slice that remains
after the reserved prefix (`self.path[start..]`): the size to consume from the
back and the parsed component. -/
def parseBackS (s : List Nat) : Nat × Option Component :=
  match lastSep s with
  | none => (s.length, parseSingle s)
  | some i => ((s.drop (i + 1)).length + 1, parseSingle (s.drop (i + 1)))

/-- `parse_next_component` on the iterator state. -/
def parseNext (c : Components) : Nat × Option Component := parseNextL c.path

/-- `parse_next_component_back` on the iterator state. -/
def parseBack (c : Components) : Nat × Option Component :=
  parseBackS (c.path.drop (lbb c))

/-- Splits a unit slice at its separators, keeping empty segments (the
specification-level token decomposition of the body of a path). -/
def splitSep : List Nat → List (List Nat)
  | [] => [[]]
  | b :: rest =>
    if sep b then [] :: splitSep rest
    else List.modifyHead (fun t => b :: t) (splitSep rest)

/-- The components contributed by the body of a path: its separator tokens,
classified by `parseSingle`, with the `none` tokens dropped. -/
def bodyComps (s : List Nat) : List Component :=
  (splitSep s).filterMap parseSingle

/-- The components still owed by the front prefix of an iterator state:
`Root` or `Current` when the front cursor is still at `StartDir`. -/
def startList (c : Components) : List Component :=
  if c.front = State.StartDir then
    if c.has_root then [Component.Root]
    else if incl c then [Component.Current]
    else []
  else []

/-- Specification-level remaining forward component sequence of an iterator
state: the pending prefix components followed by the body tokens of the slice
after the reserved prefix; empty once the iterator is finished. -/
def remForward (c : Components) : List Component :=
  if finished c then [] else startList c ++ bodyComps (c.path.drop (lbb c))

/-- Invariant of every reachable iterator state: either the iterator is
finished, or the reserved prefix fits in the slice, and once the back cursor
has reached `StartDir` the slice is exactly the reserved prefix. -/
def IterInv (c : Components) : Prop :=
  finished c = true ∨
    (lbb c ≤ c.path.length ∧
      (c.back ≠ State.StartDir ∨ c.path.length = lbb c))

instance (c : Components) : Decidable (IterInv c) := by
  unfold IterInv; infer_instance

/-- Front measure: slice length plus a weight for the front cursor; every
loop iteration of `Iterator::next` strictly decreases it. -/
def muF (c : Components) : Nat :=
  c.path.length +
    (match c.front with
     | State.StartDir => 2
     | State.Body => 1
     | State.Done => 0)

/-- Back measure: slice length plus a weight for the back cursor; every loop
iteration of `DoubleEndedIterator::next_back` strictly decreases it. -/
def muB (c : Components) : Nat :=
  c.path.length +
    (match c.back with
     | State.Body => 2
     | State.StartDir => 1
     | State.Done => 0)

/-- Embeds the loop of `Iterator::next for Components`, with explicit fuel.
Each arm mirrors the Rust `match self.front`: at `StartDir` the front cursor
moves to `Body` and yields `Root` or `Current` when applicable; at `Body` one
raw token is consumed and yielded unless it normalizes away; an empty slice
moves the front cursor to `Done`. -/
def nextF : Nat → Components → Option Component × Components
  | 0, c => (none, c)
  | f + 1, c =>
    if finished c then (none, c)
    else
      match c.front with
      | State.StartDir =>
        if c.has_root then
          (some Component.Root, { c with front := State.Body, path := c.path.drop 1 })
        else if incl c then
          (some Component.Current, { c with front := State.Body, path := c.path.drop 1 })
        else nextF f { c with front := State.Body }
      | State.Body =>
        if c.path = [] then nextF f { c with front := State.Done }
        else
          match parseNext c with
          | (size, some x) => (some x, { c with path := c.path.drop size })
          | (size, none) => nextF f { c with path := c.path.drop size }
      | State.Done => (none, c)

/-- Embeds the loop of `DoubleEndedIterator::next_back for Components`, with
explicit fuel.  At `Body` the last raw token after the reserved prefix is
consumed from the back; once only the reserved prefix remains the back cursor
moves to `StartDir`, from which `Root`/`Current` are yielded and the back
cursor moves to `Done`. -/
def nextBackF : Nat → Components → Option Component × Components
  | 0, c => (none, c)
  | f + 1, c =>
    if finished c then (none, c)
    else
      match c.back with
      | State.Body =>
        if lbb c < c.path.length then
          match parseBack c with
          | (size, some x) =>
            (some x, { c with path := c.path.take (c.path.length - size) })
          | (size, none) =>
            nextBackF f { c with path := c.path.take (c.path.length - size) }
        else nextBackF f { c with back := State.StartDir }
      | State.StartDir =>
        if c.has_root then
          (some Component.Root,
            { c with back := State.Done, path := c.path.take (c.path.length - 1) })
        else if incl c then
          (some Component.Current,
            { c with back := State.Done, path := c.path.take (c.path.length - 1) })
        else nextBackF f { c with back := State.Done }
      | State.Done => (none, c)

/-- `Iterator::next`: one call of the front state machine. -/
def next (c : Components) : Option Component × Components := nextF (muF c) c

/-- `DoubleEndedIterator::next_back`: one call of the back state machine. -/
def nextBack (c : Components) : Option Component × Components := nextBackF (muB c) c

/-- The sequence obtained by repeatedly calling `next` until it yields
nothing, with fuel. -/
def collectFwdF : Nat → Components → List Component
  | 0, _ => []
  | f + 1, c =>
    match next c with
    | (some x, c') => x :: collectFwdF f c'
    | (none, _) => []

/-- The sequence obtained by repeatedly calling `next` until it yields
nothing (forward iteration collected into a list). -/
def collectFwd (c : Components) : List Component := collectFwdF (muF c) c

/-- The sequence obtained by repeatedly calling `next_back` until it yields
nothing, with fuel. -/
def collectBwdF : Nat → Components → List Component
  | 0, _ => []
  | f + 1, c =>
    match nextBack c with
    | (some x, c') => x :: collectBwdF f c'
    | (none, _) => []

/-- The sequence obtained by repeatedly calling `next_back` until it yields
nothing (backward iteration collected into a list). -/
def collectBwd (c : Components) : List Component := collectBwdF (muB c) c

/-- An arbitrary interleaving of `next` (`true`) and `next_back` (`false`)
calls on one iterator: returns the components yielded by the front calls in
call order, the components yielded by the back calls in call order, and the
final iterator state. -/
def runIter : Components → List Bool → List Component × List Component × Components
  | c, [] => ([], [], c)
  | c, d :: ds =>
    if d then
      match next c with
      | (x, c') =>
        let r := runIter c' ds
        (x.toList ++ r.1, r.2.1, r.2.2)
    else
      match nextBack c with
      | (x, c') =>
        let r := runIter c' ds
        (r.1, x.toList ++ r.2.1, r.2.2)

/-- Embeds `U8Path::has_root`: `is_separator(self.0.as_slice()[0])`.  The
indexing panics on the empty slice, which the embedding reports as `none`. -/
def hasRootOpt (p : List Nat) : Option Bool :=
  match p with
  | [] => none
  | b :: _ => some (sep b)

/-- The freshly constructed component iterator over a (non-empty) path view,
as built by `U8Path::components`: `has_root` snapshotted from the first unit,
front cursor at `StartDir`, back cursor at `Body`.  (`List.headI [] = 0`, so
on the empty slice this picks `has_root = false`; the faithful, panicking
constructor is `mkComponentsOpt`.) -/
def cFresh (p : List Nat) : Components :=
  { path := p, has_root := sep p.headI, front := State.StartDir, back := State.Body }

/-- Embeds `U8Path::components`: calls `has_root()`, which panics (`none`) on
the empty path view. -/
def mkComponentsOpt (p : List Nat) : Option Components :=
  (hasRootOpt p).map fun hr =>
    { path := p, has_root := hr, front := State.StartDir, back := State.Body }

/-- Embeds the loop of `Components::trim_left`, with fuel: repeatedly drop
components that parse to nothing from the front, stop at the first real
component or when the slice is empty. -/
def trimLeftF : Nat → Components → Components
  | 0, c => c
  | f + 1, c =>
    if c.path = [] then c
    else
      match parseNext c with
      | (_, some _) => c
      | (size, none) => trimLeftF f { c with path := c.path.drop size }

/-- `Components::trim_left`. -/
def trimLeft (c : Components) : Components := trimLeftF (c.path.length + 1) c

/-- Embeds the loop of `Components::trim_right`, with fuel: repeatedly drop
components that parse to nothing from the back, stop at the first real
component or when only the reserved prefix remains. -/
def trimRightF : Nat → Components → Components
  | 0, c => c
  | f + 1, c =>
    if lbb c < c.path.length then
      match parseBack c with
      | (_, some _) => c
      | (size, none) => trimRightF f { c with path := c.path.take (c.path.length - size) }
    else c

/-- `Components::trim_right`. -/
def trimRight (c : Components) : Components := trimRightF (c.path.length + 1) c

/-- Embeds `Components::as_path`: clone, trim the left end if the front
cursor is at `Body`, trim the right end if the back cursor is at `Body`, and
return the remaining slice as a path view. -/
def asPath (c : Components) : List Nat :=
  let c1 := if c.front = State.Body then trimLeft c else c
  let c2 := if c1.back = State.Body then trimRight c1 else c1
  c2.path

/-- Embeds `impl PartialEq for Components`: the raw fast path (equal lengths,
equal front cursors, both back cursors at `Body`, identical slices), otherwise
element-wise comparison of the two reversed iterations. -/
def componentsBeq (c1 c2 : Components) : Bool :=
  if (c1.path.length = c2.path.length ∧ c1.front = c2.front ∧
        c1.back = State.Body ∧ c2.back = State.Body) ∧ c1.path = c2.path
  then true
  else decide (collectBwd c1 = collectBwd c2)

/-- Embeds `impl PartialEq for U8Path`:
`self.components() == other.components()`; constructing either iterator
panics (`none`) on an empty view. -/
def u8PathEq (a b : List Nat) : Option Bool :=
  match mkComponentsOpt a, mkComponentsOpt b with
  | some c1, some c2 => some (componentsBeq c1 c2)
  | _, _ => none

/-- The byte sequence of a string literal (test inputs of the repository are
ASCII literals). -/
def strBytes (s : String) : List Nat := s.data.map Char.toNat

lemma sep_ne_dot {b : Nat} (h : sep b = true) : (b == 46) = false := by
  simp only [sep, Bool.or_eq_true, beq_iff_eq] at h
  rcases h with h | h <;> subst h <;> decide

lemma finished_of_front_done {c : Components} (h : c.front = State.Done) :
    finished c = true := by
  simp [finished, h]

lemma finished_of_back_done {c : Components} (h : c.back = State.Done) :
    finished c = true := by
  simp [finished, h]

lemma remForward_of_finished {c : Components} (h : finished c = true) :
    remForward c = [] := by
  simp [remForward, h]

lemma muF_zero {c : Components} (h : muF c = 0) :
    c.front = State.Done ∧ c.path = [] := by
  unfold muF at h
  rcases hf : c.front <;> rw [hf] at h <;> simp at h <;>
    simp_all [List.length_eq_zero]

lemma muB_zero {c : Components} (h : muB c = 0) :
    c.back = State.Done ∧ c.path = [] := by
  unfold muB at h
  rcases hb : c.back <;> rw [hb] at h <;> simp at h <;>
    simp_all [List.length_eq_zero]

lemma splitSep_ne_nil (s : List Nat) : splitSep s ≠ [] := by
  induction s with
  | nil => simp [splitSep]
  | cons b rest ih =>
    simp only [splitSep]
    split
    · simp
    · cases h : splitSep rest with
      | nil => exact absurd h ih
      | cons t ts => simp [List.modifyHead]

lemma modifyHead_append_left (f : List Nat → List Nat) (l1 l2 : List (List Nat))
    (h : l1 ≠ []) : (l1 ++ l2).modifyHead f = l1.modifyHead f ++ l2 := by
  cases l1 with
  | nil => exact absurd rfl h
  | cons a t => simp [List.modifyHead]

lemma firstSep_none_splitSep {s : List Nat} (h : firstSep s = none) :
    splitSep s = [s] := by
  induction s with
  | nil => simp [splitSep]
  | cons b rest ih =>
    simp only [firstSep] at h
    cases hb : sep b with
    | true => simp [hb] at h
    | false =>
      rw [hb] at h
      simp only [Bool.false_eq_true, if_false, Option.map_eq_none'] at h
      simp [splitSep, hb, ih h, List.modifyHead]

lemma firstSep_some_lt {s : List Nat} {i : Nat} (h : firstSep s = some i) :
    i < s.length := by
  induction s generalizing i with
  | nil => simp [firstSep] at h
  | cons b rest ih =>
    simp only [firstSep] at h
    cases hb : sep b with
    | true =>
      rw [hb] at h
      simp only [if_true] at h
      obtain rfl : i = 0 := by simpa using h.symm
      simp
    | false =>
      rw [hb] at h
      simp only [Bool.false_eq_true, if_false, Option.map_eq_some'] at h
      obtain ⟨j, hj, rfl⟩ := h
      have := ih hj
      simp
      omega

lemma firstSep_some_splitSep {s : List Nat} {i : Nat} (h : firstSep s = some i) :
    splitSep s = s.take i :: splitSep (s.drop (i + 1)) := by
  induction s generalizing i with
  | nil => simp [firstSep] at h
  | cons b rest ih =>
    simp only [firstSep] at h
    cases hb : sep b with
    | true =>
      rw [hb] at h
      simp only [if_true] at h
      obtain rfl : i = 0 := by simpa using h.symm
      simp [splitSep, hb]
    | false =>
      rw [hb] at h
      simp only [Bool.false_eq_true, if_false, Option.map_eq_some'] at h
      obtain ⟨j, hj, rfl⟩ := h
      simp [splitSep, hb, ih hj, List.modifyHead]

lemma lastSep_none_splitSep {s : List Nat} (h : lastSep s = none) :
    splitSep s = [s] := by
  induction s with
  | nil => simp [splitSep]
  | cons b rest ih =>
    simp only [lastSep] at h
    cases h' : lastSep rest with
    | some j => rw [h'] at h; simp at h
    | none =>
      rw [h'] at h
      cases hb : sep b with
      | true => rw [hb] at h; simp at h
      | false => simp [splitSep, hb, ih h', List.modifyHead]

lemma lastSep_some_lt {s : List Nat} {i : Nat} (h : lastSep s = some i) :
    i < s.length := by
  induction s generalizing i with
  | nil => simp [lastSep] at h
  | cons b rest ih =>
    simp only [lastSep] at h
    cases h' : lastSep rest with
    | some j =>
      rw [h'] at h
      obtain rfl : i = j + 1 := by simpa using h.symm
      have := ih h'
      simp
      omega
    | none =>
      rw [h'] at h
      cases hb : sep b with
      | true =>
        rw [hb] at h
        simp only [if_true] at h
        obtain rfl : i = 0 := by simpa using h.symm
        simp
      | false => rw [hb] at h; simp at h

lemma lastSep_some_split {s : List Nat} {i : Nat} (h : lastSep s = some i) :
    splitSep s = splitSep (s.take i) ++ [s.drop (i + 1)] := by
  induction s generalizing i with
  | nil => simp [lastSep] at h
  | cons b rest ih =>
    simp only [lastSep] at h
    cases h' : lastSep rest with
    | some j =>
      rw [h'] at h
      obtain rfl : i = j + 1 := by simpa using h.symm
      cases hb : sep b with
      | true => simp [splitSep, hb, ih h']
      | false =>
        simp only [List.take_succ_cons, List.drop_succ_cons, splitSep, hb,
          Bool.false_eq_true, if_false, ih h']
        rw [modifyHead_append_left _ _ _ (splitSep_ne_nil _)]
    | none =>
      rw [h'] at h
      cases hb : sep b with
      | true =>
        rw [hb] at h
        simp only [if_true, Option.some.injEq] at h
        obtain rfl : i = 0 := h.symm
        simp [splitSep, hb, lastSep_none_splitSep h']
      | false => rw [hb] at h; simp at h

lemma lastSep_some_sep {s : List Nat} {i : Nat} (h : lastSep s = some i) :
    ∃ b t, s.drop i = b :: t ∧ sep b = true := by
  induction s generalizing i with
  | nil => simp [lastSep] at h
  | cons b rest ih =>
    simp only [lastSep] at h
    cases h' : lastSep rest with
    | some j =>
      rw [h'] at h
      obtain rfl : i = j + 1 := by simpa using h.symm
      simpa using ih h'
    | none =>
      rw [h'] at h
      cases hb : sep b with
      | true =>
        rw [hb] at h
        simp only [if_true, Option.some.injEq] at h
        obtain rfl : i = 0 := h.symm
        exact ⟨b, rest, rfl, hb⟩
      | false => rw [hb] at h; simp at h

lemma bodyComps_nil : bodyComps [] = [] := by decide

lemma parseSingle_nil : parseSingle [] = none := by decide

lemma bodyComps_front_step (p : List Nat) :
    bodyComps p =
      (parseNextL p).2.toList ++ bodyComps (p.drop (parseNextL p).1) := by
  unfold parseNextL
  cases h : firstSep p with
  | none =>
    cases hps : parseSingle p <;>
      simp [bodyComps, firstSep_none_splitSep h, List.filterMap_cons, hps,
        List.drop_length, splitSep, parseSingle_nil]
  | some i =>
    have hlt := firstSep_some_lt h
    have hlen : (p.take i).length = i := by rw [List.length_take]; omega
    cases hps : parseSingle (p.take i) <;>
      simp [bodyComps, firstSep_some_splitSep h, List.filterMap_cons, hps, hlen]

lemma bodyComps_back_step (s : List Nat) :
    bodyComps s =
      bodyComps (s.take (s.length - (parseBackS s).1)) ++ (parseBackS s).2.toList := by
  unfold parseBackS
  cases h : lastSep s with
  | none =>
    cases hps : parseSingle s <;>
      simp [bodyComps, lastSep_none_splitSep h, List.filterMap_cons, hps,
        Nat.sub_self, splitSep, parseSingle_nil]
  | some i =>
    have hlt := lastSep_some_lt h
    have hdl : (s.drop (i + 1)).length = s.length - (i + 1) := List.length_drop _ _
    have hsz : s.length - ((s.drop (i + 1)).length + 1) = i := by rw [hdl]; omega
    have harith : s.length - (s.length - (i + 1) + 1) = i := by omega
    cases hps : parseSingle (s.drop (i + 1)) <;>
      simp [bodyComps, lastSep_some_split h, List.filterMap_append, hps, hsz, hdl, harith]

lemma dropTake (p : List Nat) (a b : Nat) :
    (p.take (a + b)).drop a = (p.drop a).take b := by
  induction p generalizing a with
  | nil => simp
  | cons x xs ih =>
    cases a with
    | zero => simp
    | succ k => simpa [Nat.succ_add] using ih k

lemma dropDrop (p : List Nat) (a b : Nat) :
    (p.drop a).drop b = p.drop (a + b) := by
  induction p generalizing a with
  | nil => simp
  | cons x xs ih =>
    cases a with
    | zero => simp
    | succ k => simpa [Nat.succ_add] using ih k

lemma inclCore_take_sep {hr : Bool} {p : List Nat} {n b : Nat} {t : List Nat}
    (hd : p.drop n = b :: t) (hb : sep b = true) :
    inclCore hr (p.take n) = inclCore hr p := by
  cases hr with
  | true => simp [inclCore]
  | false =>
    match p, n with
    | [], n => simp at hd
    | a :: rest, 0 =>
      obtain rfl : a = b := by simpa using congrArg (·.headI) hd
      cases rest with
      | nil => simp [inclCore, sep_ne_dot hb]
      | cons c r2 => simp [inclCore, sep_ne_dot hb]
    | a :: rest, 1 =>
      simp only [List.drop_succ_cons, List.drop_zero] at hd
      subst hd
      simp [inclCore, hb, List.take_succ_cons]
    | a :: rest, (k + 2) =>
      cases rest with
      | nil => simp at hd
      | cons c r2 => simp [inclCore, List.take_succ_cons]

lemma inclCore_take_one {p : List Nat} (h : inclCore false p = true) :
    inclCore false (p.take 1) = true := by
  match p with
  | [] => simp [inclCore] at h
  | [a] => simpa [inclCore] using h
  | a :: c :: t =>
    simp only [inclCore, Bool.false_eq_true, if_false, Bool.and_eq_true] at h
    simp [inclCore, List.take_succ_cons, h.1]

lemma parseNextL_pos {p : List Nat} (h : p ≠ []) : 1 ≤ (parseNextL p).1 := by
  unfold parseNextL
  cases hf : firstSep p with
  | none => exact List.length_pos.mpr h
  | some i => simp

lemma parseBackS_size {s : List Nat} (h : s ≠ []) :
    1 ≤ (parseBackS s).1 ∧ (parseBackS s).1 ≤ s.length := by
  unfold parseBackS
  cases hf : lastSep s with
  | none =>
    have : 0 < s.length := List.length_pos.mpr h
    simp; omega
  | some i =>
    have hlt := lastSep_some_lt hf
    have hdl : (s.drop (i + 1)).length = s.length - (i + 1) := List.length_drop _ _
    simp [hdl]; omega

lemma inclCore_true (p : List Nat) : inclCore true p = false := by
  simp [inclCore]

lemma lbb_body (p : List Nat) (hr : Bool) (bk : State) :
    lbb ⟨p, hr, State.Body, bk⟩ = 0 := by
  simp [lbb]

lemma lbb_start (p : List Nat) (hr : Bool) (bk : State) :
    lbb ⟨p, hr, State.StartDir, bk⟩ =
      (if hr = true then 1 else 0) + (if inclCore hr p = true then 1 else 0) := by
  simp [lbb, incl]

lemma remForward_start (p : List Nat) (hr : Bool) (bk : State) (hbk : bk ≠ State.Done) :
    remForward ⟨p, hr, State.StartDir, bk⟩ =
      (if hr = true then [Component.Root]
       else if inclCore hr p = true then [Component.Current] else []) ++
        bodyComps (p.drop (lbb ⟨p, hr, State.StartDir, bk⟩)) := by
  cases bk with
  | Done => exact absurd rfl hbk
  | StartDir => simp [remForward, finished, stateVal, startList, incl]
  | Body => simp [remForward, finished, stateVal, startList, incl]

lemma remForward_body (p : List Nat) (hr : Bool) (bk : State) :
    remForward ⟨p, hr, State.Body, bk⟩ =
      if bk = State.Body then bodyComps p else [] := by
  cases bk <;> simp [remForward, finished, stateVal, startList, lbb, incl]

/-- Master specification of one `next` call (on the fueled form): on a state
satisfying the invariant, a yielded component is the head of the remaining
forward sequence, the invariant is preserved, and the measure decreases; a
`none` answer means the remaining forward sequence was empty and the iterator
is finished. -/
theorem nextF_spec : ∀ f c, muF c ≤ f → IterInv c →
    (∀ x c', nextF f c = (some x, c') →
        remForward c = x :: remForward c' ∧ IterInv c' ∧ muF c' < muF c) ∧
    (∀ c', nextF f c = (none, c') → remForward c = [] ∧ finished c' = true) := by
  intro f
  induction f with
  | zero =>
    intro c hmu hinv
    obtain ⟨hfr, hp⟩ := muF_zero (Nat.le_zero.mp hmu)
    have hfin := finished_of_front_done hfr
    refine ⟨?_, ?_⟩
    · intro x c' h
      simp only [nextF] at h
      simp at h
    · intro c' h
      simp only [nextF, Prod.mk.injEq] at h
      obtain ⟨-, rfl⟩ := h
      exact ⟨remForward_of_finished hfin, hfin⟩
  | succ f ih =>
    intro c hmu hinv
    by_cases hfin : finished c = true
    · refine ⟨?_, ?_⟩
      · intro x c' h
        simp only [nextF, hfin, if_true] at h
        simp at h
      · intro c' h
        simp only [nextF, hfin, if_true, Prod.mk.injEq] at h
        obtain ⟨-, rfl⟩ := h
        exact ⟨remForward_of_finished hfin, hfin⟩
    · have hinv2 : lbb c ≤ c.path.length ∧
          (c.back ≠ State.StartDir ∨ c.path.length = lbb c) := by
        rcases hinv with h | h
        · exact absurd h hfin
        · exact h
      obtain ⟨p, hr, fr, bk⟩ := c
      obtain ⟨h1, h2⟩ := hinv2
      cases fr with
      | Done => exact absurd (finished_of_front_done rfl) hfin
      | StartDir =>
        have hbkd : bk ≠ State.Done := fun hd => hfin (finished_of_back_done hd)
        cases hhr : hr with
        | true =>
          subst hhr
          have hL : lbb ⟨p, true, State.StartDir, bk⟩ = 1 := by
            simp [lbb_start, inclCore_true]
          have hlen : 1 ≤ p.length := by rw [hL] at h1; exact h1
          refine ⟨?_, ?_⟩
          · intro x c' h
            rw [nextF, if_neg hfin] at h
            simp only [inclCore_true, Bool.false_eq_true, if_true, if_false,
              Prod.mk.injEq, Option.some.injEq] at h
            obtain ⟨rfl, rfl⟩ := h
            refine ⟨?_, ?_, ?_⟩
            · rw [remForward_start p true bk hbkd, remForward_body, hL]
              cases bk with
              | Done => exact absurd rfl hbkd
              | Body => simp
              | StartDir =>
                rcases h2 with hne | hlen2
                · exact absurd rfl hne
                · rw [hL] at hlen2
                  simp [List.drop_eq_nil_of_le (le_of_eq hlen2), bodyComps_nil]
            · cases bk with
              | Done => exact absurd rfl hbkd
              | Body =>
                exact Or.inr ⟨by simp [lbb_body], Or.inl (by simp)⟩
              | StartDir =>
                exact Or.inl (by simp [finished, stateVal])
            · simp only [muF, List.length_drop]
              omega
          · intro c' h
            rw [nextF, if_neg hfin] at h
            simp only [inclCore_true, Bool.false_eq_true, if_true, if_false] at h
            simp at h
        | false =>
          subst hhr
          cases hI : inclCore false p with
          | true =>
            have hL : lbb ⟨p, false, State.StartDir, bk⟩ = 1 := by
              simp [lbb_start, hI]
            have hlen : 1 ≤ p.length := by rw [hL] at h1; exact h1
            refine ⟨?_, ?_⟩
            · intro x c' h
              rw [nextF, if_neg hfin] at h
              simp only [Bool.false_eq_true, if_false, incl, Components.has_root,
                Components.path, hI, if_true, Prod.mk.injEq, Option.some.injEq] at h
              obtain ⟨rfl, rfl⟩ := h
              refine ⟨?_, ?_, ?_⟩
              · rw [remForward_start p false bk hbkd, remForward_body, hL]
                simp only [Bool.false_eq_true, if_false, hI, if_true]
                cases bk with
                | Done => exact absurd rfl hbkd
                | Body => simp
                | StartDir =>
                  rcases h2 with hne | hlen2
                  · exact absurd rfl hne
                  · rw [hL] at hlen2
                    simp [List.drop_eq_nil_of_le (le_of_eq hlen2), bodyComps_nil]
              · cases bk with
                | Done => exact absurd rfl hbkd
                | Body =>
                  exact Or.inr ⟨by simp [lbb_body], Or.inl (by simp)⟩
                | StartDir =>
                  exact Or.inl (by simp [finished, stateVal])
              · simp only [muF, List.length_drop]
                omega
            · intro c' h
              rw [nextF, if_neg hfin] at h
              simp only [Bool.false_eq_true, if_false, incl, Components.has_root,
                Components.path, hI, if_true] at h
              simp at h
          | false =>
            have hL0 : lbb ⟨p, false, State.StartDir, bk⟩ = 0 := by
              simp [lbb_start, hI]
            have hmu1 : muF ⟨p, false, State.Body, bk⟩ ≤ f := by
              simp only [muF] at hmu ⊢
              omega
            have hmu1lt : muF ⟨p, false, State.Body, bk⟩ <
                muF ⟨p, false, State.StartDir, bk⟩ := by
              simp only [muF]
              omega
            have hinv1 : IterInv ⟨p, false, State.Body, bk⟩ := by
              rcases h2 with hne | hlen0
              · exact Or.inr ⟨by simp [lbb_body], Or.inl hne⟩
              · rw [hL0] at hlen0
                exact Or.inr ⟨by simp [lbb_body], Or.inr (by simp [lbb_body, hlen0])⟩
            have heq : remForward ⟨p, false, State.StartDir, bk⟩ =
                remForward ⟨p, false, State.Body, bk⟩ := by
              rw [remForward_start p false bk hbkd, remForward_body, hL0]
              simp only [Bool.false_eq_true, if_false, hI, List.nil_append,
                List.drop_zero]
              cases bk with
              | Done => exact absurd rfl hbkd
              | Body => simp
              | StartDir =>
                rcases h2 with hne | hlen0
                · exact absurd rfl hne
                · rw [hL0] at hlen0
                  have hp0 : p = [] := by simpa using hlen0
                  simp [hp0, bodyComps_nil]
            have hred : nextF (f + 1) ⟨p, false, State.StartDir, bk⟩ =
                nextF f ⟨p, false, State.Body, bk⟩ := by
              rw [nextF, if_neg hfin]
              simp [incl, hI]
            refine ⟨?_, ?_⟩
            · intro x c' h
              rw [hred] at h
              obtain ⟨ha, hb, hc⟩ := (ih _ hmu1 hinv1).1 x c' h
              exact ⟨heq.trans ha, hb, lt_trans hc hmu1lt⟩
            · intro c' h
              rw [hred] at h
              obtain ⟨ha, hb⟩ := (ih _ hmu1 hinv1).2 c' h
              exact ⟨heq.trans ha, hb⟩
      | Body =>
        have hbk : bk = State.Body := by
          cases bk with
          | Body => rfl
          | StartDir => exact absurd (by simp [finished, stateVal]) hfin
          | Done => exact absurd (finished_of_back_done rfl) hfin
        subst hbk
        by_cases hp : p = []
        · subst hp
          have hfin1 : finished ⟨([] : List Nat), hr, State.Done, State.Body⟩ = true :=
            finished_of_front_done rfl
          have hrem : remForward ⟨([] : List Nat), hr, State.Body, State.Body⟩ = [] := by
            rw [remForward_body]
            simp [bodyComps_nil]
          have hmu1 : muF ⟨([] : List Nat), hr, State.Done, State.Body⟩ ≤ f := by
            simp [muF]
          have hred : nextF (f + 1) ⟨([] : List Nat), hr, State.Body, State.Body⟩ =
              nextF f ⟨([] : List Nat), hr, State.Done, State.Body⟩ := by
            rw [nextF, if_neg hfin]
            simp
          refine ⟨?_, ?_⟩
          · intro x c' h
            rw [hred] at h
            obtain ⟨ha, -, -⟩ := (ih _ hmu1 (Or.inl hfin1)).1 x c' h
            rw [remForward_of_finished hfin1] at ha
            simp at ha
          · intro c' h
            rw [hred] at h
            obtain ⟨-, hb⟩ := (ih _ hmu1 (Or.inl hfin1)).2 c' h
            exact ⟨hrem, hb⟩
        · rcases hpr : parseNextL p with ⟨size, comp⟩
          have hpos : 1 ≤ size := by
            have := parseNextL_pos hp
            rw [hpr] at this
            exact this
          have hplen : 1 ≤ p.length := List.length_pos.mpr hp
          have hstep := bodyComps_front_step p
          rw [hpr] at hstep
          have hrem : remForward ⟨p, hr, State.Body, State.Body⟩ = bodyComps p := by
            rw [remForward_body]
            simp
          cases comp with
          | some x =>
            refine ⟨?_, ?_⟩
            · intro x' c' h
              rw [nextF, if_neg hfin] at h
              simp only [hp, if_false] at h
              rw [show parseNext ⟨p, hr, State.Body, State.Body⟩ = (size, some x) from hpr]
                at h
              simp only [Prod.mk.injEq, Option.some.injEq] at h
              obtain ⟨rfl, rfl⟩ := h
              refine ⟨?_, ?_, ?_⟩
              · rw [hrem, hstep, remForward_body]
                simp
              · exact Or.inr ⟨by simp [lbb_body], Or.inl (by simp)⟩
              · simp only [muF, List.length_drop]
                omega
            · intro c' h
              rw [nextF, if_neg hfin] at h
              simp only [hp, if_false] at h
              rw [show parseNext ⟨p, hr, State.Body, State.Body⟩ = (size, some x) from hpr]
                at h
              simp at h
          | none =>
            have hmu1 : muF ⟨p.drop size, hr, State.Body, State.Body⟩ ≤ f := by
              simp only [muF, List.length_drop] at hmu ⊢
              omega
            have hmu1lt : muF ⟨p.drop size, hr, State.Body, State.Body⟩ <
                muF ⟨p, hr, State.Body, State.Body⟩ := by
              simp only [muF, List.length_drop]
              omega
            have hinv1 : IterInv ⟨p.drop size, hr, State.Body, State.Body⟩ :=
              Or.inr ⟨by simp [lbb_body], Or.inl (by simp)⟩
            have heq : remForward ⟨p, hr, State.Body, State.Body⟩ =
                remForward ⟨p.drop size, hr, State.Body, State.Body⟩ := by
              rw [hrem, hstep, remForward_body]
              simp
            have hred : nextF (f + 1) ⟨p, hr, State.Body, State.Body⟩ =
                nextF f ⟨p.drop size, hr, State.Body, State.Body⟩ := by
              rw [nextF, if_neg hfin]
              simp only [hp, if_false]
              rw [show parseNext ⟨p, hr, State.Body, State.Body⟩ = (size, none) from hpr]
            refine ⟨?_, ?_⟩
            · intro x c' h
              rw [hred] at h
              obtain ⟨ha, hb, hc⟩ := (ih _ hmu1 hinv1).1 x c' h
              exact ⟨heq.trans ha, hb, lt_trans hc hmu1lt⟩
            · intro c' h
              rw [hred] at h
              obtain ⟨ha, hb⟩ := (ih _ hmu1 hinv1).2 c' h
              exact ⟨heq.trans ha, hb⟩

/-- The remaining forward sequence of a non-finished state, unfolded. -/
lemma remForward_unf {c : Components} (hfin : ¬finished c = true) :
    remForward c = startList c ++ bodyComps (c.path.drop (lbb c)) := by
  rw [remForward, if_neg hfin]

/-- Master specification of one `next_back` call (on the fueled form): on a
state satisfying the invariant, a yielded component is the last element of the
remaining forward sequence, the invariant is preserved, and the measure
decreases; a `none` answer means the remaining forward sequence was empty and
the iterator is finished. -/
theorem nextBackF_spec : ∀ f c, muB c ≤ f → IterInv c →
    (∀ x c', nextBackF f c = (some x, c') →
        remForward c = remForward c' ++ [x] ∧ IterInv c' ∧ muB c' < muB c) ∧
    (∀ c', nextBackF f c = (none, c') → remForward c = [] ∧ finished c' = true) := by
  intro f
  induction f with
  | zero =>
    intro c hmu hinv
    obtain ⟨hbk, hp⟩ := muB_zero (Nat.le_zero.mp hmu)
    have hfin := finished_of_back_done hbk
    refine ⟨?_, ?_⟩
    · intro x c' h
      simp only [nextBackF] at h
      simp at h
    · intro c' h
      simp only [nextBackF, Prod.mk.injEq] at h
      obtain ⟨-, rfl⟩ := h
      exact ⟨remForward_of_finished hfin, hfin⟩
  | succ f ih =>
    intro c hmu hinv
    by_cases hfin : finished c = true
    · refine ⟨?_, ?_⟩
      · intro x c' h
        simp only [nextBackF, hfin, if_true] at h
        simp at h
      · intro c' h
        simp only [nextBackF, hfin, if_true, Prod.mk.injEq] at h
        obtain ⟨-, rfl⟩ := h
        exact ⟨remForward_of_finished hfin, hfin⟩
    · have hinv2 : lbb c ≤ c.path.length ∧
          (c.back ≠ State.StartDir ∨ c.path.length = lbb c) := by
        rcases hinv with h | h
        · exact absurd h hfin
        · exact h
      obtain ⟨p, hr, fr, bk⟩ := c
      obtain ⟨h1, h2⟩ := hinv2
      have hfrd : fr ≠ State.Done := fun hd => hfin (finished_of_front_done hd)
      cases bk with
      | Done => exact absurd (finished_of_back_done rfl) hfin
      | Body =>
        by_cases hprog :
            lbb ⟨p, hr, fr, State.Body⟩ < p.length
        · -- progress: parse one token from the back
          have hsl : (p.drop (lbb ⟨p, hr, fr, State.Body⟩)).length =
              p.length - lbb ⟨p, hr, fr, State.Body⟩ := List.length_drop _ _
          have hsne : p.drop (lbb ⟨p, hr, fr, State.Body⟩) ≠ [] := by
            rw [← List.length_pos, hsl]
            omega
          rcases hpr : parseBackS (p.drop (lbb ⟨p, hr, fr, State.Body⟩)) with ⟨size, comp⟩
          have hsz := parseBackS_size hsne
          rw [hpr] at hsz
          dsimp only at hsz
          rw [hsl] at hsz
          have hL1 : lbb ⟨p, hr, fr, State.Body⟩ ≤ p.length := le_of_lt hprog
          have harith : p.length - size =
              lbb ⟨p, hr, fr, State.Body⟩ +
                ((p.drop (lbb ⟨p, hr, fr, State.Body⟩)).length - size) := by
            rw [hsl]
            omega
          have hdt : (p.take (p.length - size)).drop (lbb ⟨p, hr, fr, State.Body⟩) =
              (p.drop (lbb ⟨p, hr, fr, State.Body⟩)).take
                ((p.drop (lbb ⟨p, hr, fr, State.Body⟩)).length - size) := by
            rw [harith, dropTake]
          have hstep := bodyComps_back_step (p.drop (lbb ⟨p, hr, fr, State.Body⟩))
          rw [hpr] at hstep
          dsimp only at hstep
          have hkey : lbb ⟨p.take (p.length - size), hr, fr, State.Body⟩ =
                lbb ⟨p, hr, fr, State.Body⟩ ∧
              startList ⟨p.take (p.length - size), hr, fr, State.Body⟩ =
                startList ⟨p, hr, fr, State.Body⟩ := by
            cases fr with
            | Done => exact absurd rfl hfrd
            | Body => exact ⟨by simp [lbb_body], by simp [startList]⟩
            | StartDir =>
              -- stability of the reserved prefix under the back truncation
              have hincl' : inclCore hr (p.take (p.length - size)) = inclCore hr p := by
                rcases hls : lastSep (p.drop (lbb ⟨p, hr, State.StartDir, State.Body⟩))
                  with - | i
                · -- no separator after the prefix: the cut lands at the prefix
                  have hsize :
                      size = (p.drop (lbb ⟨p, hr, State.StartDir, State.Body⟩)).length := by
                    rw [parseBackS, hls] at hpr
                    injection hpr with hA hB
                    exact hA.symm
                  have hcut : p.length - size = lbb ⟨p, hr, State.StartDir, State.Body⟩ := by
                    rw [hsize, hsl]
                    omega
                  rw [hcut]
                  cases hhr : hr with
                  | true => simp [inclCore_true]
                  | false =>
                    subst hhr
                    cases hI : inclCore false p with
                    | false =>
                      have hL0 : lbb ⟨p, false, State.StartDir, State.Body⟩ = 0 := by
                        simp [lbb_start, hI]
                      rw [hL0]
                      simp [inclCore, hI]
                    | true =>
                      have hL1' : lbb ⟨p, false, State.StartDir, State.Body⟩ = 1 := by
                        simp [lbb_start, hI]
                      simp [hL1', inclCore_take_one hI, hI]
                · -- the cut lands right before the last separator
                  have hilt := lastSep_some_lt hls
                  have hsize :
                      size = (p.drop (lbb ⟨p, hr, State.StartDir, State.Body⟩)).length - i := by
                    rw [parseBackS, hls] at hpr
                    injection hpr with hA hB
                    rw [List.length_drop] at hA
                    rw [List.length_drop] at hilt ⊢
                    omega
                  have hcut :
                      p.length - size = lbb ⟨p, hr, State.StartDir, State.Body⟩ + i := by
                    rw [hsize, hsl]
                    rw [List.length_drop] at hilt
                    omega
                  obtain ⟨b, t, hbt, hsepb⟩ := lastSep_some_sep hls
                  have hdrop :
                      p.drop (lbb ⟨p, hr, State.StartDir, State.Body⟩ + i) = b :: t := by
                    rw [← dropDrop, hbt]
                  rw [hcut]
                  exact inclCore_take_sep hdrop hsepb
              exact ⟨by simp [lbb_start, hincl'], by simp [startList, incl, hincl']⟩
          have hfin' : ¬finished ⟨p.take (p.length - size), hr, fr, State.Body⟩ = true :=
            hfin
          have hlen' : (p.take (p.length - size)).length = p.length - size := by
            rw [List.length_take]
            omega
          have hrem2 : remForward ⟨p, hr, fr, State.Body⟩ =
              remForward ⟨p.take (p.length - size), hr, fr, State.Body⟩ ++
                comp.toList := by
            rw [remForward_unf hfin, remForward_unf hfin']
            show startList ⟨p, hr, fr, State.Body⟩ ++
                bodyComps (p.drop (lbb ⟨p, hr, fr, State.Body⟩)) = _
            rw [hstep, hkey.1, hkey.2, hdt, List.append_assoc]
          have hinv' : IterInv ⟨p.take (p.length - size), hr, fr, State.Body⟩ := by
            refine Or.inr ⟨?_, Or.inl (by simp)⟩
            rw [hkey.1, hlen', harith, hsl]
            omega
          have hmub : muB ⟨p.take (p.length - size), hr, fr, State.Body⟩ <
              muB ⟨p, hr, fr, State.Body⟩ := by
            simp only [muB, hlen']
            omega
          cases comp with
          | some x =>
            refine ⟨?_, ?_⟩
            · intro x' c' h
              rw [nextBackF, if_neg hfin] at h
              simp only [hprog, if_true] at h
              rw [show parseBack ⟨p, hr, fr, State.Body⟩ = (size, some x) from hpr] at h
              simp only [Prod.mk.injEq, Option.some.injEq] at h
              obtain ⟨rfl, rfl⟩ := h
              refine ⟨?_, hinv', hmub⟩
              simpa [Option.toList] using hrem2
            · intro c' h
              rw [nextBackF, if_neg hfin] at h
              simp only [hprog, if_true] at h
              rw [show parseBack ⟨p, hr, fr, State.Body⟩ = (size, some x) from hpr] at h
              simp at h
          | none =>
            have hmu1 : muB ⟨p.take (p.length - size), hr, fr, State.Body⟩ ≤ f := by
              have := hmub
              omega
            have hrem3 : remForward ⟨p, hr, fr, State.Body⟩ =
                remForward ⟨p.take (p.length - size), hr, fr, State.Body⟩ := by
              simpa [Option.toList] using hrem2
            have hred : nextBackF (f + 1) ⟨p, hr, fr, State.Body⟩ =
                nextBackF f ⟨p.take (p.length - size), hr, fr, State.Body⟩ := by
              rw [nextBackF, if_neg hfin]
              simp only [hprog, if_true]
              rw [show parseBack ⟨p, hr, fr, State.Body⟩ = (size, none) from hpr]
            refine ⟨?_, ?_⟩
            · intro x c' h
              rw [hred] at h
              obtain ⟨ha, hb, hc⟩ := (ih _ hmu1 hinv').1 x c' h
              exact ⟨hrem3.trans ha, hb, lt_trans hc hmub⟩
            · intro c' h
              rw [hred] at h
              obtain ⟨ha, hb⟩ := (ih _ hmu1 hinv').2 c' h
              exact ⟨hrem3.trans ha, hb⟩
        · -- no progress: only the reserved prefix remains; move back to StartDir
          have h1' : lbb ⟨p, hr, fr, State.Body⟩ ≤ p.length := h1
          have hlenL : p.length = lbb ⟨p, hr, fr, State.Body⟩ := by
            omega
          have hmu1 : muB ⟨p, hr, fr, State.StartDir⟩ ≤ f := by
            simp only [muB] at hmu ⊢
            omega
          have hmub : muB ⟨p, hr, fr, State.StartDir⟩ <
              muB ⟨p, hr, fr, State.Body⟩ := by
            simp only [muB]
            omega
          have hLsame : lbb ⟨p, hr, fr, State.StartDir⟩ =
              lbb ⟨p, hr, fr, State.Body⟩ := rfl
          have hinv1 : IterInv ⟨p, hr, fr, State.StartDir⟩ := by
            refine Or.inr ⟨?_, Or.inr ?_⟩
            · rw [hLsame]
              exact le_of_eq hlenL.symm
            · show p.length = _
              rw [hLsame]
              exact hlenL
          have heq : remForward ⟨p, hr, fr, State.Body⟩ =
              remForward ⟨p, hr, fr, State.StartDir⟩ := by
            cases fr with
            | Done => exact absurd rfl hfrd
            | StartDir =>
              rw [remForward_unf hfin, remForward_unf (by simp [finished, stateVal])]
              rfl
            | Body =>
              have hp0 : p = [] := by
                rw [lbb_body] at hlenL
                cases p with
                | nil => rfl
                | cons a t => simp at hlenL
              subst hp0
              have hfin2 : finished
                  ⟨([] : List Nat), hr, State.Body, State.StartDir⟩ = true := by
                simp [finished, stateVal]
              rw [remForward_unf hfin, remForward_of_finished hfin2]
              simp [startList, bodyComps_nil, lbb_body]
          have hred : nextBackF (f + 1) ⟨p, hr, fr, State.Body⟩ =
              nextBackF f ⟨p, hr, fr, State.StartDir⟩ := by
            rw [nextBackF, if_neg hfin]
            simp only [hprog, if_false]
          refine ⟨?_, ?_⟩
          · intro x c' h
            rw [hred] at h
            obtain ⟨ha, hb, hc⟩ := (ih _ hmu1 hinv1).1 x c' h
            exact ⟨heq.trans ha, hb, lt_trans hc hmub⟩
          · intro c' h
            rw [hred] at h
            obtain ⟨ha, hb⟩ := (ih _ hmu1 hinv1).2 c' h
            exact ⟨heq.trans ha, hb⟩
      | StartDir =>
        have hfr : fr = State.StartDir := by
          cases fr with
          | StartDir => rfl
          | Body => exact absurd (by simp [finished, stateVal]) hfin
          | Done => exact absurd rfl hfrd
        subst hfr
        have hlenL : p.length = lbb ⟨p, hr, State.StartDir, State.StartDir⟩ := by
          rcases h2 with hne | hl
          · exact absurd rfl hne
          · exact hl
        cases hhr : hr with
        | true =>
          subst hhr
          have hL : lbb ⟨p, true, State.StartDir, State.StartDir⟩ = 1 := by
            simp [lbb_start, inclCore_true]
          have hp1 : p.length = 1 := by rw [hlenL, hL]
          refine ⟨?_, ?_⟩
          · intro x c' h
            rw [nextBackF, if_neg hfin] at h
            simp only [if_true, Prod.mk.injEq, Option.some.injEq] at h
            obtain ⟨rfl, rfl⟩ := h
            have hfd : finished
                ⟨p.take (p.length - 1), true, State.StartDir, State.Done⟩ = true :=
              finished_of_back_done rfl
            refine ⟨?_, Or.inl hfd, ?_⟩
            · rw [remForward_of_finished hfd, remForward_unf hfin]
              have hd1 : p.drop 1 = [] := by
                cases p with
                | nil => rfl
                | cons a t =>
                  simp only [List.length_cons] at hp1
                  simp only [List.drop_succ_cons, List.drop_zero]
                  cases t with
                  | nil => rfl
                  | cons b u => simp at hp1
              simp [startList, incl, inclCore_true, hL, hd1, bodyComps_nil]
            · simp only [muB, List.length_take]
              omega
          · intro c' h
            rw [nextBackF, if_neg hfin] at h
            simp only [if_true] at h
            simp at h
        | false =>
          subst hhr
          cases hI : inclCore false p with
          | true =>
            have hL : lbb ⟨p, false, State.StartDir, State.StartDir⟩ = 1 := by
              simp [lbb_start, hI]
            have hp1 : p.length = 1 := by rw [hlenL, hL]
            refine ⟨?_, ?_⟩
            · intro x c' h
              rw [nextBackF, if_neg hfin] at h
              simp only [Bool.false_eq_true, if_false, incl, Components.has_root,
                Components.path, hI, if_true, Prod.mk.injEq, Option.some.injEq] at h
              obtain ⟨rfl, rfl⟩ := h
              have hfd : finished
                  ⟨p.take (p.length - 1), false, State.StartDir, State.Done⟩ = true :=
                finished_of_back_done rfl
              refine ⟨?_, Or.inl hfd, ?_⟩
              · rw [remForward_of_finished hfd, remForward_unf hfin]
                have hd1 : p.drop 1 = [] := by
                  cases p with
                  | nil => rfl
                  | cons a t =>
                    simp only [List.length_cons] at hp1
                    simp only [List.drop_succ_cons, List.drop_zero]
                    cases t with
                    | nil => rfl
                    | cons b u => simp at hp1
                simp [startList, incl, hI, hL, hd1, bodyComps_nil]
              · simp only [muB, List.length_take]
                omega
            · intro c' h
              rw [nextBackF, if_neg hfin] at h
              simp only [Bool.false_eq_true, if_false, incl, Components.has_root,
                Components.path, hI, if_true] at h
              simp at h
          | false =>
            have hL : lbb ⟨p, false, State.StartDir, State.StartDir⟩ = 0 := by
              simp [lbb_start, hI]
            have hp0 : p = [] := by
              rw [hL] at hlenL
              exact List.length_eq_zero.mp hlenL
            have hrem : remForward ⟨p, false, State.StartDir, State.StartDir⟩ = [] := by
              rw [remForward_unf hfin]
              simp [startList, incl, hI, hp0, bodyComps_nil, inclCore]
            have hfin1 : finished ⟨p, false, State.StartDir, State.Done⟩ = true :=
              finished_of_back_done rfl
            have hmu1 : muB ⟨p, false, State.StartDir, State.Done⟩ ≤ f := by
              simp only [muB] at hmu ⊢
              omega
            have hred : nextBackF (f + 1) ⟨p, false, State.StartDir, State.StartDir⟩ =
                nextBackF f ⟨p, false, State.StartDir, State.Done⟩ := by
              rw [nextBackF, if_neg hfin]
              simp [incl, hI]
            refine ⟨?_, ?_⟩
            · intro x c' h
              rw [hred] at h
              obtain ⟨ha, -, -⟩ := (ih _ hmu1 (Or.inl hfin1)).1 x c' h
              rw [remForward_of_finished hfin1] at ha
              simp at ha
            · intro c' h
              rw [hred] at h
              obtain ⟨-, hb⟩ := (ih _ hmu1 (Or.inl hfin1)).2 c' h
              exact ⟨hrem, hb⟩

/-- `next_spec`: the master specification instantiated to one `next` call. -/
theorem next_spec (c : Components) (hinv : IterInv c) :
    (∀ x c', next c = (some x, c') →
        remForward c = x :: remForward c' ∧ IterInv c' ∧ muF c' < muF c) ∧
    (∀ c', next c = (none, c') → remForward c = [] ∧ finished c' = true) :=
  nextF_spec (muF c) c le_rfl hinv

/-- `nextBack_spec`: the master specification instantiated to one `next_back`
call. -/
theorem nextBack_spec (c : Components) (hinv : IterInv c) :
    (∀ x c', nextBack c = (some x, c') →
        remForward c = remForward c' ++ [x] ∧ IterInv c' ∧ muB c' < muB c) ∧
    (∀ c', nextBack c = (none, c') → remForward c = [] ∧ finished c' = true) :=
  nextBackF_spec (muB c) c le_rfl hinv

lemma collectFwdF_rem : ∀ f c, muF c ≤ f → IterInv c →
    collectFwdF f c = remForward c := by
  intro f
  induction f with
  | zero =>
    intro c hmu hinv
    obtain ⟨hfr, -⟩ := muF_zero (Nat.le_zero.mp hmu)
    rw [remForward_of_finished (finished_of_front_done hfr)]
    rfl
  | succ f ih =>
    intro c hmu hinv
    rcases hn : next c with ⟨x, c'⟩
    cases x with
    | some y =>
      obtain ⟨ha, hb, hc⟩ := (next_spec c hinv).1 y c' hn
      have hle : muF c' ≤ f := by omega
      calc collectFwdF (f + 1) c = y :: collectFwdF f c' := by
            simp [collectFwdF, hn]
        _ = y :: remForward c' := by rw [ih c' hle hb]
        _ = remForward c := ha.symm
    | none =>
      obtain ⟨ha, -⟩ := (next_spec c hinv).2 c' hn
      calc collectFwdF (f + 1) c = [] := by simp [collectFwdF, hn]
        _ = remForward c := ha.symm

lemma collectBwdF_rem : ∀ f c, muB c ≤ f → IterInv c →
    collectBwdF f c = (remForward c).reverse := by
  intro f
  induction f with
  | zero =>
    intro c hmu hinv
    obtain ⟨hbk, -⟩ := muB_zero (Nat.le_zero.mp hmu)
    rw [remForward_of_finished (finished_of_back_done hbk)]
    rfl
  | succ f ih =>
    intro c hmu hinv
    rcases hn : nextBack c with ⟨x, c'⟩
    cases x with
    | some y =>
      obtain ⟨ha, hb, hc⟩ := (nextBack_spec c hinv).1 y c' hn
      have hle : muB c' ≤ f := by omega
      calc collectBwdF (f + 1) c = y :: collectBwdF f c' := by
            simp [collectBwdF, hn]
        _ = y :: (remForward c').reverse := by rw [ih c' hle hb]
        _ = (remForward c' ++ [y]).reverse := by simp
        _ = (remForward c).reverse := by rw [ha]
    | none =>
      obtain ⟨ha, -⟩ := (nextBack_spec c hinv).2 c' hn
      calc collectBwdF (f + 1) c = [] := by simp [collectBwdF, hn]
        _ = (remForward c).reverse := by rw [ha]; rfl

/-- Forward collection computes the remaining forward sequence. -/
lemma collectFwd_eq {c : Components} (hinv : IterInv c) :
    collectFwd c = remForward c :=
  collectFwdF_rem (muF c) c le_rfl hinv

/-- Backward collection computes the reverse of the remaining forward
sequence. -/
lemma collectBwd_eq {c : Components} (hinv : IterInv c) :
    collectBwd c = (remForward c).reverse :=
  collectBwdF_rem (muB c) c le_rfl hinv

/-- Every interleaving of front and back calls partitions the remaining
forward sequence: front yields, then what is still pending, then the back
yields reversed. -/
theorem runIter_spec : ∀ (ds : List Bool) (c : Components), IterInv c →
    (runIter c ds).1 ++ remForward (runIter c ds).2.2 ++
        ((runIter c ds).2.1).reverse = remForward c ∧
      IterInv (runIter c ds).2.2 := by
  intro ds
  induction ds with
  | nil =>
    intro c hinv
    exact ⟨by simp [runIter], hinv⟩
  | cons d ds ih =>
    intro c hinv
    cases d with
    | true =>
      rcases hn : next c with ⟨x, c'⟩
      cases x with
      | some y =>
        obtain ⟨ha, hb, -⟩ := (next_spec c hinv).1 y c' hn
        obtain ⟨ih1, ih2⟩ := ih c' hb
        refine ⟨?_, by simpa [runIter, hn] using ih2⟩
        simp only [runIter, hn, if_true]
        simp only [Option.toList, List.cons_append, List.nil_append, List.append_assoc] at ih1 ⊢
        rw [ih1, ← ha]
      | none =>
        obtain ⟨ha, hfinc⟩ := (next_spec c hinv).2 c' hn
        obtain ⟨ih1, ih2⟩ := ih c' (Or.inl hfinc)
        refine ⟨?_, by simpa [runIter, hn] using ih2⟩
        simp only [runIter, hn, if_true]
        simp only [Option.toList, List.nil_append, List.append_assoc] at ih1 ⊢
        rw [ih1, remForward_of_finished hfinc, ha]
    | false =>
      rcases hn : nextBack c with ⟨x, c'⟩
      cases x with
      | some y =>
        obtain ⟨ha, hb, -⟩ := (nextBack_spec c hinv).1 y c' hn
        obtain ⟨ih1, ih2⟩ := ih c' hb
        refine ⟨?_, by simpa [runIter, hn] using ih2⟩
        simp only [runIter, hn, Bool.false_eq_true, if_false]
        rw [ha, ← ih1]
        simp [List.append_assoc, List.reverse_cons, Option.toList]
      | none =>
        obtain ⟨ha, hfinc⟩ := (nextBack_spec c hinv).2 c' hn
        obtain ⟨ih1, ih2⟩ := ih c' (Or.inl hfinc)
        refine ⟨?_, by simpa [runIter, hn] using ih2⟩
        simp only [runIter, hn, Bool.false_eq_true, if_false]
        simp only [Option.toList, List.nil_append, List.append_assoc] at ih1 ⊢
        rw [ih1, remForward_of_finished hfinc, ha]

/-- A freshly built iterator always satisfies the reachability invariant. -/
lemma IterInv_cFresh (p : List Nat) : IterInv (cFresh p) := by
  refine Or.inr ⟨?_, Or.inl (by simp [cFresh])⟩
  show lbb ⟨p, sep p.headI, State.StartDir, State.Body⟩ ≤ p.length
  rw [lbb_start]
  cases p with
  | nil => simp [inclCore, List.headI, sep]
  | cons a t =>
    show ((if sep a = true then 1 else 0) +
        if inclCore (sep a) (a :: t) = true then 1 else 0) ≤ (a :: t).length
    cases hs : sep a with
    | true =>
      simp [hs, inclCore_true]
    | false =>
      rcases hI : inclCore false (a :: t) <;> simp [hs, hI]

lemma parseSingle_ne_root (t : List Nat) : parseSingle t ≠ some Component.Root := by
  unfold parseSingle
  split
  · simp
  · split
    · simp
    · split
      · simp
      · simp

lemma root_not_mem_bodyComps (s : List Nat) : Component.Root ∉ bodyComps s := by
  intro h
  obtain ⟨t, -, ht⟩ := List.mem_filterMap.mp h
  exact parseSingle_ne_root t ht

lemma root_not_mem_remForward {c : Components} (hroot : c.has_root = false) :
    Component.Root ∉ remForward c := by
  rw [remForward]
  split
  · simp
  · intro h
    rcases List.mem_append.mp h with h | h
    · rw [startList] at h
      by_cases hfr : c.front = State.StartDir
      · rw [if_pos hfr, hroot] at h
        simp only [Bool.false_eq_true, if_false] at h
        split at h
        · simp at h
        · simp at h
      · rw [if_neg hfr] at h
        simp at h
    · exact root_not_mem_bodyComps _ h

/-- Claim C1 (code bug): the spec promises that the empty path view yields a
component iterator producing zero components from either direction, but
`U8Path::has_root` evaluates `self.0.as_slice()[0]` unconditionally, so
`U8Path::components` panics (modelled as `none`) on the empty view. -/
theorem c1_empty_components_panics :
    hasRootOpt ([] : List Nat) = none ∧ mkComponentsOpt ([] : List Nat) = none :=
  ⟨rfl, rfl⟩

/-- Claim C3: for every non-empty path view, the backward-collected component
sequence, reversed, equals the forward-collected component sequence of a fresh
iterator. -/
theorem c3_reverse_consistency (p : List Nat) (_hp : p ≠ []) :
    (collectBwd (cFresh p)).reverse = collectFwd (cFresh p) := by
  rw [collectBwd_eq (IterInv_cFresh p), collectFwd_eq (IterInv_cFresh p),
    List.reverse_reverse]

theorem c3_witness :
    (strBytes "/a/b" ≠ ([] : List Nat)) ∧
      (collectBwd (cFresh (strBytes "/a/b"))).reverse =
        collectFwd (cFresh (strBytes "/a/b")) :=
  ⟨by decide, c3_reverse_consistency (strBytes "/a/b") (by decide)⟩

/-- Claim C4: for every non-empty path view and every interleaving of front
and back calls after which both directions are exhausted, the front yields in
order followed by the back yields in reverse order are exactly the forward
component sequence — nothing is double-counted or skipped. -/
theorem c4_interleaving (p : List Nat) (_hp : p ≠ []) (ds : List Bool)
    (hf : (next (runIter (cFresh p) ds).2.2).1 = none)
    (_hb : (nextBack (runIter (cFresh p) ds).2.2).1 = none) :
    (runIter (cFresh p) ds).1 ++ ((runIter (cFresh p) ds).2.1).reverse =
      collectFwd (cFresh p) := by
  obtain ⟨h1, h2⟩ := runIter_spec ds (cFresh p) (IterInv_cFresh p)
  rcases hn : next (runIter (cFresh p) ds).2.2 with ⟨x, ce'⟩
  have hx : x = none := by rw [hn] at hf; exact hf
  subst hx
  obtain ⟨hrem0, -⟩ := (next_spec _ h2).2 ce' hn
  rw [collectFwd_eq (IterInv_cFresh p), ← h1, hrem0]
  simp

theorem c4_witness :
    (strBytes "/a/b" ≠ ([] : List Nat)) ∧
      (runIter (cFresh (strBytes "/a/b")) [true, false, true, false, true, false]).1 ++
          ((runIter (cFresh (strBytes "/a/b"))
              [true, false, true, false, true, false]).2.1).reverse =
        collectFwd (cFresh (strBytes "/a/b")) :=
  ⟨by decide,
    c4_interleaving (strBytes "/a/b") (by decide)
      [true, false, true, false, true, false] (by decide) (by decide)⟩

/-- Claim C6: the forward-collected components of `"./test/my/./../help//"`
are exactly `[Current, Normal "test", Normal "my", Parent, Normal "help"]`. -/
theorem c6_component_round_trip :
    (mkComponentsOpt (strBytes "./test/my/./../help//")).map collectFwd =
      some [Component.Current, Component.Normal (strBytes "test"),
        Component.Normal (strBytes "my"), Component.Parent,
        Component.Normal (strBytes "help")] := by
  decide

/-- Claim C8: a non-empty path view whose first unit is a separator reports
`has_root` and yields `Root` as its first forward component; a path view with
no leading separator never yields `Root` from any interleaving of `next` and
`next_back` calls. -/
theorem c8_root_detection (p : List Nat) (hp : p ≠ []) :
    hasRootOpt p = some (sep p.headI) ∧
      (sep p.headI = true → (next (cFresh p)).1 = some Component.Root) ∧
      (sep p.headI = false → ∀ ds : List Bool,
        Component.Root ∉ (runIter (cFresh p) ds).1 ∧
        Component.Root ∉ (runIter (cFresh p) ds).2.1) := by
  refine ⟨?_, ?_, ?_⟩
  · cases p with
    | nil => exact absurd rfl hp
    | cons a t => rfl
  · intro hsep
    have hrm : ∃ rest, remForward (cFresh p) = Component.Root :: rest := by
      refine ⟨bodyComps (p.drop
        (lbb ⟨p, true, State.StartDir, State.Body⟩)), ?_⟩
      show remForward ⟨p, sep p.headI, State.StartDir, State.Body⟩ = _
      rw [hsep, remForward_start _ _ _ (by simp)]
      simp
    obtain ⟨rest, hrm⟩ := hrm
    rcases hn : next (cFresh p) with ⟨x, c'⟩
    cases x with
    | some y =>
      obtain ⟨ha, -, -⟩ := (next_spec _ (IterInv_cFresh p)).1 y c' hn
      have hh := hrm.symm.trans ha
      injection hh with h1 h2
      simp [← h1]
    | none =>
      obtain ⟨ha, -⟩ := (next_spec _ (IterInv_cFresh p)).2 c' hn
      rw [hrm] at ha
      simp at ha
  · intro hsep ds
    have hroot : (cFresh p).has_root = false := hsep
    obtain ⟨h1, -⟩ := runIter_spec ds (cFresh p) (IterInv_cFresh p)
    constructor
    · intro hmem
      exact root_not_mem_remForward hroot
        (h1 ▸ List.mem_append.mpr (Or.inl (List.mem_append.mpr (Or.inl hmem))))
    · intro hmem
      exact root_not_mem_remForward hroot
        (h1 ▸ List.mem_append.mpr (Or.inr (List.mem_reverse.mpr hmem)))

theorem c8_witness :
    (strBytes "/a" ≠ ([] : List Nat)) ∧
      (next (cFresh (strBytes "/a"))).1 = some Component.Root :=
  ⟨by decide, (c8_root_detection (strBytes "/a") (by decide)).2.1 (by decide)⟩

/-- Claim C9: the view of `"./test/my\\help/"` equals the view of
`"./test/my/help/"` (backslash and slash are interchangeable separators), and
the view of `"./test/my/./help//"` equals the view of `"./test/my/help/"`
(interior `.` segments and repeated separators do not affect equality). -/
theorem c9_separator_and_redundant_equality :
    u8PathEq (strBytes "./test/my\\help/") (strBytes "./test/my/help/") = some true ∧
      u8PathEq (strBytes "./test/my/./help//") (strBytes "./test/my/help/") = some true :=
  ⟨by decide, by decide⟩

lemma headI_take {p : List Nat} {k : Nat} (hk : 1 ≤ k) :
    (p.take k).headI = p.headI := by
  cases p with
  | nil => simp
  | cons a t =>
    cases k with
    | zero => omega
    | succ j => simp

/-- One no-yield truncation step of the right-trim loop (front cursor at
`StartDir`): it consumes at least one unit, never cuts into the reserved
prefix, leaves the `include_cur_dir` decision unchanged, leaves the body token
classification unchanged when the dropped token normalizes away, and keeps the
slice non-empty when the `has_root` flag agrees with the first unit. -/
lemma trimBackStep (p : List Nat) (hr : Bool) (size : Nat) (comp : Option Component)
    (hprog : lbb ⟨p, hr, State.StartDir, State.Body⟩ < p.length)
    (hpr : parseBackS (p.drop (lbb ⟨p, hr, State.StartDir, State.Body⟩)) =
      (size, comp)) :
    1 ≤ size ∧ size ≤ p.length - lbb ⟨p, hr, State.StartDir, State.Body⟩ ∧
      inclCore hr (p.take (p.length - size)) = inclCore hr p ∧
      (comp = none →
        bodyComps ((p.take (p.length - size)).drop
            (lbb ⟨p, hr, State.StartDir, State.Body⟩)) =
          bodyComps (p.drop (lbb ⟨p, hr, State.StartDir, State.Body⟩))) ∧
      (hr = sep p.headI → comp = none → 1 ≤ p.length - size) := by
  have hsl : (p.drop (lbb ⟨p, hr, State.StartDir, State.Body⟩)).length =
      p.length - lbb ⟨p, hr, State.StartDir, State.Body⟩ := List.length_drop _ _
  have hsne : p.drop (lbb ⟨p, hr, State.StartDir, State.Body⟩) ≠ [] := by
    rw [← List.length_pos, hsl]
    omega
  have hsz := parseBackS_size hsne
  rw [hpr] at hsz
  dsimp only at hsz
  rw [hsl] at hsz
  have hL1 : lbb ⟨p, hr, State.StartDir, State.Body⟩ ≤ p.length := le_of_lt hprog
  have harith : p.length - size =
      lbb ⟨p, hr, State.StartDir, State.Body⟩ +
        ((p.drop (lbb ⟨p, hr, State.StartDir, State.Body⟩)).length - size) := by
    rw [hsl]
    omega
  have hdt : (p.take (p.length - size)).drop (lbb ⟨p, hr, State.StartDir, State.Body⟩) =
      (p.drop (lbb ⟨p, hr, State.StartDir, State.Body⟩)).take
        ((p.drop (lbb ⟨p, hr, State.StartDir, State.Body⟩)).length - size) := by
    rw [harith, dropTake]
  have hstep := bodyComps_back_step (p.drop (lbb ⟨p, hr, State.StartDir, State.Body⟩))
  rw [hpr] at hstep
  dsimp only at hstep
  refine ⟨hsz.1, hsz.2, ?_, ?_, ?_⟩
  · -- `include_cur_dir` stability, by cases on where the cut lands
    rcases hls : lastSep (p.drop (lbb ⟨p, hr, State.StartDir, State.Body⟩)) with - | i
    · have hsize : size = (p.drop (lbb ⟨p, hr, State.StartDir, State.Body⟩)).length := by
        rw [parseBackS, hls] at hpr
        injection hpr with hA hB
        exact hA.symm
      have hcut : p.length - size = lbb ⟨p, hr, State.StartDir, State.Body⟩ := by
        rw [hsize, hsl]
        omega
      rw [hcut]
      cases hhr : hr with
      | true => simp [inclCore_true]
      | false =>
        subst hhr
        cases hI : inclCore false p with
        | false =>
          have hL0 : lbb ⟨p, false, State.StartDir, State.Body⟩ = 0 := by
            simp [lbb_start, hI]
          rw [hL0]
          simp [inclCore, hI]
        | true =>
          have hL1' : lbb ⟨p, false, State.StartDir, State.Body⟩ = 1 := by
            simp [lbb_start, hI]
          simp [hL1', inclCore_take_one hI, hI]
    · have hilt := lastSep_some_lt hls
      have hsize : size = (p.drop (lbb ⟨p, hr, State.StartDir, State.Body⟩)).length - i := by
        rw [parseBackS, hls] at hpr
        injection hpr with hA hB
        rw [List.length_drop] at hA
        rw [List.length_drop] at hilt ⊢
        omega
      have hcut : p.length - size = lbb ⟨p, hr, State.StartDir, State.Body⟩ + i := by
        rw [hsize, hsl]
        rw [List.length_drop] at hilt
        omega
      obtain ⟨b, t, hbt, hsepb⟩ := lastSep_some_sep hls
      have hdrop : p.drop (lbb ⟨p, hr, State.StartDir, State.Body⟩ + i) = b :: t := by
        rw [← dropDrop, hbt]
      rw [hcut]
      exact inclCore_take_sep hdrop hsepb
  · intro hcn
    rw [hcn] at hstep
    rw [hdt, hstep]
    simp
  · -- the cut never empties the slice when `has_root` matches the first unit
    intro hhead hcn
    by_contra hzero
    have hps : p.length - size = 0 := by omega
    rcases hls : lastSep (p.drop (lbb ⟨p, hr, State.StartDir, State.Body⟩)) with - | i
    · have hsize : size = (p.drop (lbb ⟨p, hr, State.StartDir, State.Body⟩)).length := by
        rw [parseBackS, hls] at hpr
        injection hpr with hA hB
        exact hA.symm
      have hL0 : lbb ⟨p, hr, State.StartDir, State.Body⟩ = 0 := by
        rw [hsize, hsl] at hps
        omega
      have hsp : p.drop (lbb ⟨p, hr, State.StartDir, State.Body⟩) = p := by
        rw [hL0]
        rfl
      have hcomp : parseSingle p = none := by
        rw [parseBackS, hls, hsp] at hpr
        injection hpr with hA hB
        rw [hB, hcn]
      have hpdot : p = curDir := by
        by_contra hne
        rw [parseSingle, if_neg hne] at hcomp
        by_cases hpar : p = parentDir
        · rw [if_pos hpar] at hcomp
          simp at hcomp
        · rw [if_neg hpar] at hcomp
          by_cases hnil : p = []
          · rw [hnil] at hprog
            simp at hprog
          · rw [if_neg hnil] at hcomp
            simp at hcomp
      have hhrf : hr = false := by
        rw [hhead, hpdot]
        rfl
      have : lbb ⟨p, hr, State.StartDir, State.Body⟩ = 1 := by
        subst hhrf
        rw [hpdot]
        simp [lbb_start, inclCore, curDir]
      omega
    · have hilt := lastSep_some_lt hls
      have hsize : size = (p.drop (lbb ⟨p, hr, State.StartDir, State.Body⟩)).length - i := by
        rw [parseBackS, hls] at hpr
        injection hpr with hA hB
        rw [List.length_drop] at hA
        rw [List.length_drop] at hilt ⊢
        omega
      have hLi : lbb ⟨p, hr, State.StartDir, State.Body⟩ + i = 0 := by
        rw [hsize, hsl] at hps
        rw [List.length_drop] at hilt
        omega
      obtain ⟨b, t, hbt, hsepb⟩ := lastSep_some_sep hls
      have hdrop : p.drop (lbb ⟨p, hr, State.StartDir, State.Body⟩ + i) = b :: t := by
        rw [← dropDrop, hbt]
      rw [hLi] at hdrop
      have hp' : p = b :: t := by simpa using hdrop
      have hhb : p.headI = b := by
        rw [hp']
        rfl
      have : hr = true := by rw [hhead, hhb, hsepb]
      have : lbb ⟨p, hr, State.StartDir, State.Body⟩ = 1 := by
        subst this
        simp [lbb_start, inclCore_true]
      omega

/-- Specification of the right-trim loop on a fresh-front state: only the
path slice changes, the first unit and the `include_cur_dir` decision are
preserved, the slice stays non-empty, and the body tokens after the reserved
prefix classify to the same component list. -/
lemma trimRightF_spec : ∀ (f : Nat) (p : List Nat) (hr : Bool), p.length ≤ f →
    (p ≠ [] → hr = sep p.headI) →
    ∃ q, trimRightF f ⟨p, hr, State.StartDir, State.Body⟩ =
        ⟨q, hr, State.StartDir, State.Body⟩ ∧
      (p ≠ [] → q ≠ [] ∧ q.headI = p.headI) ∧
      inclCore hr q = inclCore hr p ∧
      bodyComps (q.drop (lbb ⟨p, hr, State.StartDir, State.Body⟩)) =
        bodyComps (p.drop (lbb ⟨p, hr, State.StartDir, State.Body⟩)) := by
  intro f
  induction f with
  | zero =>
    intro p hr hmu hhead
    have hp0 : p = [] := by
      cases p with
      | nil => rfl
      | cons a t => simp at hmu
    subst hp0
    exact ⟨[], rfl, fun h => absurd rfl h, rfl, rfl⟩
  | succ f ih =>
    intro p hr hmu hhead
    by_cases hprog : lbb ⟨p, hr, State.StartDir, State.Body⟩ < p.length
    · rcases hpr : parseBackS (p.drop (lbb ⟨p, hr, State.StartDir, State.Body⟩))
        with ⟨size, comp⟩
      cases comp with
      | some x =>
        refine ⟨p, ?_, fun h => ⟨h, rfl⟩, rfl, rfl⟩
        rw [trimRightF]
        simp only [hprog, if_true]
        rw [show parseBack ⟨p, hr, State.StartDir, State.Body⟩ = (size, some x) from hpr]
      | none =>
        obtain ⟨hs1, hs2, hincl, hbody, hne⟩ :=
          trimBackStep p hr size none hprog hpr
        have hLeq : lbb ⟨p.take (p.length - size), hr, State.StartDir, State.Body⟩ =
            lbb ⟨p, hr, State.StartDir, State.Body⟩ := by
          simp [lbb_start, hincl]
        have hlen' : (p.take (p.length - size)).length = p.length - size := by
          rw [List.length_take]
          omega
        have hmu' : (p.take (p.length - size)).length ≤ f := by
          rw [hlen']
          omega
        have hpne : p ≠ [] := by
          intro h
          rw [h] at hprog
          simp at hprog
        have hcutpos : 1 ≤ p.length - size := hne (hhead hpne) rfl
        have hqne : p.take (p.length - size) ≠ [] := by
          rw [← List.length_pos, hlen']
          omega
        have hqhead : (p.take (p.length - size)).headI = p.headI :=
          headI_take hcutpos
        have hhead' : p.take (p.length - size) ≠ [] →
            hr = sep (p.take (p.length - size)).headI := by
          intro _
          rw [hqhead]
          exact hhead hpne
        obtain ⟨q, htr, hne', hincl', hbody'⟩ := ih (p.take (p.length - size)) hr hmu' hhead'
        refine ⟨q, ?_, ?_, hincl'.trans hincl, ?_⟩
        · rw [trimRightF]
          simp only [hprog, if_true]
          rw [show parseBack ⟨p, hr, State.StartDir, State.Body⟩ = (size, none) from hpr]
          exact htr
        · intro _
          obtain ⟨hq1, hq2⟩ := hne' hqne
          exact ⟨hq1, hq2.trans hqhead⟩
        · rw [hLeq] at hbody'
          exact hbody'.trans (hbody rfl)
    · refine ⟨p, ?_, fun h => ⟨h, rfl⟩, rfl, rfl⟩
      rw [trimRightF]
      simp only [hprog, if_false]

/-- Claim C7: normalization is idempotent — for every non-empty path view the
canonical view produced by `as_path` on a fresh iterator is itself a valid
(non-empty) path view whose forward component sequence equals that of the
original view. -/
theorem c7_idempotent_normalization (p : List Nat) (hp : p ≠ []) :
    (mkComponentsOpt (asPath (cFresh p))).map collectFwd =
      some (collectFwd (cFresh p)) := by
  obtain ⟨q, htr, hne, hincl, hbody⟩ :=
    trimRightF_spec (p.length + 1) p (sep p.headI) (by omega) (fun _ => rfl)
  have hq : asPath (cFresh p) = q := by
    simp only [asPath, cFresh]
    simp only [reduceCtorEq, if_false, if_true]
    rw [trimRight]
    rw [show trimRightF ((⟨p, sep p.headI, State.StartDir,
        State.Body⟩ : Components).path.length + 1)
      ⟨p, sep p.headI, State.StartDir, State.Body⟩ =
        ⟨q, sep p.headI, State.StartDir, State.Body⟩ from htr]
  obtain ⟨hqne, hqhead⟩ := hne hp
  have hmk : mkComponentsOpt q = some (cFresh q) := by
    cases q with
    | nil => exact absurd rfl hqne
    | cons a t => rfl
  rw [hq, hmk, Option.map_some']
  refine congrArg some ?_
  rw [collectFwd_eq (IterInv_cFresh q), collectFwd_eq (IterInv_cFresh p)]
  have hcq : cFresh q = ⟨q, sep p.headI, State.StartDir, State.Body⟩ := by
    rw [cFresh, hqhead]
  rw [hcq]
  show remForward ⟨q, sep p.headI, State.StartDir, State.Body⟩ =
    remForward ⟨p, sep p.headI, State.StartDir, State.Body⟩
  have hfinq : ¬finished ⟨q, sep p.headI, State.StartDir, State.Body⟩ = true := by
    simp [finished, stateVal]
  have hfinp : ¬finished ⟨p, sep p.headI, State.StartDir, State.Body⟩ = true := by
    simp [finished, stateVal]
  rw [remForward_unf hfinq, remForward_unf hfinp]
  have hlbb : lbb ⟨q, sep p.headI, State.StartDir, State.Body⟩ =
      lbb ⟨p, sep p.headI, State.StartDir, State.Body⟩ := by
    simp [lbb_start, hincl]
  have hsl : startList ⟨q, sep p.headI, State.StartDir, State.Body⟩ =
      startList ⟨p, sep p.headI, State.StartDir, State.Body⟩ := by
    simp [startList, incl, hincl]
  dsimp only
  rw [hsl, hlbb, hbody]

theorem c7_witness :
    (strBytes "./a//" ≠ ([] : List Nat)) ∧
      (mkComponentsOpt (asPath (cFresh (strBytes "./a//")))).map collectFwd =
        some (collectFwd (cFresh (strBytes "./a//"))) :=
  ⟨by decide, c7_idempotent_normalization (strBytes "./a//") (by decide)⟩

lemma u8PathEq_some {a b : List Nat} (ha : a ≠ []) (hb : b ≠ []) :
    u8PathEq a b = some (componentsBeq (cFresh a) (cFresh b)) := by
  cases a with
  | nil => exact absurd rfl ha
  | cons x t =>
    cases b with
    | nil => exact absurd rfl hb
    | cons y u => rfl

/-- Claim C2 counterexample: the spec asserts that the view of `"./a/b/"`
equals the view of `"a/b"`, but `U8Path::eq` compares the component
sequences, which differ: the former begins with `Current`. -/
theorem c2_counterexample :
    u8PathEq (strBytes "./a/b/") (strBytes "a/b") = some false := by
  decide

/-- Claim C2 (amended): for every pair of non-empty path views, equality
holds iff the forward component sequences are equal element-wise — in
particular the view of `"a\\b"` equals the view of `"a/b"`; however the view
of `"./a/b/"` is *not* equal to the view of `"a/b"`, since the former's
component sequence begins with `Current`. -/
theorem c2_eq_iff_components (a b : List Nat) (ha : a ≠ []) (hb : b ≠ []) :
    (u8PathEq a b = some true ↔
        collectFwd (cFresh a) = collectFwd (cFresh b)) ∧
      u8PathEq (strBytes "a\\b") (strBytes "a/b") = some true := by
  refine ⟨?_, by decide⟩
  rw [u8PathEq_some ha hb, componentsBeq]
  split
  · next hcond =>
    have hab : a = b := hcond.2
    subst hab
    simp
  · simp only [Option.some.injEq, decide_eq_true_eq]
    rw [collectBwd_eq (IterInv_cFresh a), collectBwd_eq (IterInv_cFresh b),
      collectFwd_eq (IterInv_cFresh a), collectFwd_eq (IterInv_cFresh b)]
    exact List.reverse_inj

theorem c2_witness :
    (strBytes "a" ≠ ([] : List Nat)) ∧ (strBytes "b" ≠ ([] : List Nat)) ∧
      ((u8PathEq (strBytes "a") (strBytes "b") = some true ↔
          collectFwd (cFresh (strBytes "a")) = collectFwd (cFresh (strBytes "b"))) ∧
        u8PathEq (strBytes "a\\b") (strBytes "a/b") = some true) :=
  ⟨by decide, by decide,
    c2_eq_iff_components (strBytes "a") (strBytes "b") (by decide) (by decide)⟩

/-- Embeds `U8PathBuf::find_break` (the `qp_trie::Break` implementation): walk
backward from the trie-chosen split offset while the unit there is not a
separator, and return the slice before the separator.  The walk has no lower
bound check: decrementing past offset 0, or indexing out of bounds, panics
(modelled as `none`). -/
def findBreak (buf : List Nat) : Nat → Option (List Nat)
  | 0 =>
    match buf.get? 0 with
    | none => none
    | some b => if sep b then some (buf.take 0) else none
  | l + 1 =>
    match buf.get? (l + 1) with
    | none => none
    | some b => if sep b then some (buf.take (l + 1)) else findBreak buf l

/-- Modelled from the spec: the state of the external byte-keyed compressed
trie engine (the `qp_trie` crate, an external collaborator excluded from the
repository), as the list of inserted key/value bindings. -/
abbrev PathTrieM : Type := List (List Nat × Nat)

/-- Modelled from the spec: `PathTrie::insert` delegates to the byte-keyed
engine; inserting an existing key replaces its value and returns the previous
one. -/
def trieInsert (t : PathTrieM) (k : List Nat) (v : Nat) : Option Nat × PathTrieM :=
  match t.find? (fun e => decide (e.1 = k)) with
  | some e => (some e.2, t.map fun e' => if e'.1 = k then (k, v) else e')
  | none => (none, t ++ [(k, v)])

/-- Modelled from the spec: a stored key is judged a prefix of a query only
when it is a unit-wise prefix and the next query unit at that position is
absent or is a separator (§4.6 of the specification). -/
def isCompPref (k q : List Nat) : Bool :=
  decide (q.take k.length = k) &&
    (match q.drop k.length with
     | [] => true
     | b :: _ => sep b)

/-- Modelled from the spec: `PathTrie::longest_prefix` returns the longest
inserted path that is a component-wise prefix of the query; the engine's
empty-key sentinel is the empty path view. -/
def longestPref (t : PathTrieM) (q : List Nat) : List Nat :=
  t.foldl
    (fun acc e =>
      if isCompPref e.1 q && decide (acc.length < e.1.length) then e.1 else acc)
    []

/-- Claim C5: after inserting `/hello/world → 1`, `/hello/world/spam → 2` and
`/hello/spam/eggs → 1`, the longest-prefix query for `/hello/world/spad`
returns the stored path view `/hello/world` and never a byte-level partial
match such as `/hello/worl`; the repository's `find_break` policy snaps the
byte-level split offset inside `spam`/`spad` back to the preceding separator,
returning exactly `/hello/world`. -/
theorem c5_trie_longest_match :
    longestPref
        (trieInsert (trieInsert (trieInsert [] (strBytes "/hello/world") 1).2
            (strBytes "/hello/world/spam") 2).2
          (strBytes "/hello/spam/eggs") 1).2
        (strBytes "/hello/world/spad") = strBytes "/hello/world" ∧
      longestPref
          (trieInsert (trieInsert (trieInsert [] (strBytes "/hello/world") 1).2
              (strBytes "/hello/world/spam") 2).2
            (strBytes "/hello/spam/eggs") 1).2
          (strBytes "/hello/world/spad") ≠ strBytes "/hello/worl" ∧
      findBreak (strBytes "/hello/world/spam") 14 = some (strBytes "/hello/world") :=
  ⟨by decide, by decide, by decide⟩

/-- Claim C10: whenever no unit at an index at or before the split offset is
a separator (for example a stored relative-path key with no separator at
all), `find_break` panics from the unchecked backward scan instead of
returning a split view. -/
lemma take_getElem (p : List Nat) (n m : Nat) (h : m < n) :
    (p.take n)[m]? = p[m]? := by
  induction p generalizing n m with
  | nil => simp
  | cons a t ihp =>
    cases n with
    | zero => omega
    | succ k =>
      cases m with
      | zero => simp
      | succ j => simpa using ihp k j (by omega)

theorem c10_find_break_panics (buf : List Nat) (loc : Nat)
    (hloc : loc < buf.length)
    (hsep : (buf.take (loc + 1)).all (fun b => !sep b) = true) :
    findBreak buf loc = none := by
  induction loc with
  | zero =>
    cases hb : buf[0]? with
    | none => simp [findBreak, hb]
    | some b =>
      have hg : (buf.take 1).get? 0 = some b := by
        rw [List.get?_eq_getElem?, take_getElem buf 1 0 (by omega)]
        exact hb
      have hmem : b ∈ buf.take 1 := List.get?_mem hg
      have hbs : (!sep b) = true := List.all_eq_true.mp hsep b hmem
      simp only [Bool.not_eq_true'] at hbs
      simp [findBreak, hb, hbs]
  | succ l ih =>
    cases hb : buf[l + 1]? with
    | none => simp [findBreak, hb]
    | some b =>
      have hg : (buf.take (l + 2)).get? (l + 1) = some b := by
        rw [List.get?_eq_getElem?, take_getElem buf (l + 2) (l + 1) (by omega)]
        exact hb
      have hmem : b ∈ buf.take (l + 2) := List.get?_mem hg
      have hbs : (!sep b) = true := List.all_eq_true.mp hsep b hmem
      simp only [Bool.not_eq_true'] at hbs
      have hsub : buf.take (l + 1) ⊆ buf.take (l + 2) := by
        intro x hx
        have : x ∈ (buf.take (l + 2)).take (l + 1) := by
          rw [List.take_take]
          simpa using hx
        exact List.take_subset _ _ this
      have hsep' : (buf.take (l + 1)).all (fun b => !sep b) = true := by
        rw [List.all_eq_true] at hsep ⊢
        exact fun x hx => hsep x (hsub hx)
      have hrec := ih (by omega) hsep'
      simp [findBreak, hb, hbs, hrec]

theorem c10_witness :
    2 < (strBytes "abc").length ∧
      ((strBytes "abc").take 3).all (fun b => !sep b) = true ∧
      findBreak (strBytes "abc") 2 = none :=
  ⟨by decide, by decide,
    c10_find_break_panics (strBytes "abc") 2 (by decide) (by decide)⟩

end AincradFS
